import Mathlib

/-!
Verification of the core numeric components of generate_beats_resources.py:
the time grid, the two tones and their composite, the beat envelope, the PCM
encoding used by write_wav, the rfft-based spectrum normalization, and the
sliding-window frame extraction used by the animation.

Machine integers are modelled by Int, Python floor division by Int.fdiv,
Python float arithmetic by exact arithmetic over the rationals (for the
grid, PCM and indexing code) and over the reals (for the trigonometric
signal code). Conversion by int() and astype is truncation toward zero.
-/

namespace Beats

/-- Truncation toward zero on rationals, the behaviour of Python int() and of
numpy astype applied to a float value. -/
def truncQ (q : ℚ) : ℤ := if 0 ≤ q then ⌊q⌋ else ⌈q⌉

/-- The sample count int(fs*duration) from source line 38. -/
def numSamples (fs duration : ℚ) : ℤ := truncQ (fs * duration)

/-- The sample count as a natural number. Faithful when the count is
nonnegative: a zero count makes np.linspace return an empty array, while a
negative count makes np.linspace raise ValueError and is outside this model. -/
def gridN (fs duration : ℚ) : ℕ := (numSamples fs duration).toNat

/-- Element i of np.linspace(0, duration, N, endpoint=False) from source
line 38: the grid value i * duration / N. -/
def t (fs duration : ℚ) (i : ℕ) : ℚ :=
  (i : ℚ) * duration / ((numSamples fs duration : ℤ) : ℚ)

/-- The whole time grid as a list, in index order. -/
def timeList (fs duration : ℚ) : List ℚ :=
  (List.range (gridN fs duration)).map (t fs duration)

/-- One sample of np.clip(data, -1.0, 1.0) from source line 47. -/
def data_clip (x : ℚ) : ℚ := min (max x (-1)) 1

/-- One sample of (data_clip * 32767.0).astype(np.int16) from source line 48:
scale the clipped value by 32767 and truncate toward zero. -/
def int_data (x : ℚ) : ℤ := truncQ (data_clip x * 32767)

/-- Wrapping conversion of an integer into the signed 16 bit range, the
wrap-around semantics of astype(np.int16) on an out-of-range integer. -/
def toInt16 (z : ℤ) : ℤ := (z + 32768) % 65536 - 32768

/-- The sample pipeline of write_wav applied to a whole buffer. -/
def write_wav (data : List ℚ) : List ℤ := data.map int_data

/-- step = max(1, (len(t) - window) // frames) from source line 99, with
Python floor division. Faithful when frames is nonzero: frames = 0 makes
Python raise ZeroDivisionError and is outside this model. -/
def step (N window frames : ℤ) : ℤ := max 1 (Int.fdiv (N - window) frames)

/-- The value j = i + window if i + window <= len(t) else len(t) computed in
update (source line 114), where i = frame * step. -/
def sliceEnd (N window frames k : ℤ) : ℤ :=
  if k * step N window frames + window ≤ N then k * step N window frames + window else N

/-- The final start index i = i if j - i == window else len(t) - window of
frame k, from source line 115. -/
def sliceStart (N window frames k : ℤ) : ℤ :=
  if sliceEnd N window frames k - k * step N window frames = window then
    k * step N window frames
  else N - window

/-- The index length j - i of the slice [i:j] taken by frame k. -/
def sliceLen (N window frames k : ℤ) : ℤ :=
  sliceEnd N window frames k - sliceStart N window frames k

/-- Tone 1 from source line 39: x1 = cos(2 pi f1 t), evaluated at one time. -/
noncomputable def x1 (f1 tv : ℝ) : ℝ := Real.cos (2 * Real.pi * f1 * tv)

/-- Tone 2 from source line 40: x2 = cos(2 pi f2 t), evaluated at one time. -/
noncomputable def x2 (f2 tv : ℝ) : ℝ := Real.cos (2 * Real.pi * f2 * tv)

/-- Composite signal from source line 41: x_sum = 0.5 * (x1 + x2). -/
noncomputable def x_sum (f1 f2 tv : ℝ) : ℝ := 0.5 * (x1 f1 tv + x2 f2 tv)

/-- delta_f = abs(f2 - f1) from source line 42. -/
noncomputable def delta_f (f1 f2 : ℝ) : ℝ := |f2 - f1|

/-- Envelope from source line 43: abs(cos(pi * delta_f * t)) at one time. -/
noncomputable def envelope (f1 f2 tv : ℝ) : ℝ :=
  |Real.cos (Real.pi * delta_f f1 f2 * tv)|

/-- The composite signal sampled over the whole time grid, in index order. -/
noncomputable def x_sumList (fs duration : ℚ) (f1 f2 : ℝ) : List ℝ :=
  List.map (fun q : ℚ => x_sum f1 f2 ((q : ℚ) : ℝ)) (timeList fs duration)

/-- Coefficient k of np.fft.rfft(v, n=M) from source line 85: the sum over
samples n below M of v n * exp(-2 pi i k n / M). -/
noncomputable def rfft (v : ℕ → ℝ) (M k : ℕ) : ℂ :=
  ∑ n ∈ Finset.range M,
    (v n : ℂ) *
      Complex.exp (-(2 * (Real.pi : ℂ) * Complex.I) * (k : ℂ) * (n : ℂ) / (M : ℂ))

/-- The magnitude np.abs(X) at bin k. -/
noncomputable def absX (v : ℕ → ℝ) (M k : ℕ) : ℝ := Complex.abs (rfft v M k)

/-- The normalizer np.max(np.abs(X)) over the one-sided bins 0..M/2. -/
noncomputable def maxAbsX (v : ℕ → ℝ) (M : ℕ) : ℝ :=
  (Finset.range (M / 2 + 1)).sup' Finset.nonempty_range_succ (absX v M)

/-- The normalized magnitude amp = np.abs(X) / np.max(np.abs(X)) at bin k,
from source line 87. -/
noncomputable def amp (v : ℕ → ℝ) (M k : ℕ) : ℝ := absX v M k / maxAbsX v M

/-- Frequency bin k of np.fft.rfftfreq(M, d=1/fs) from source line 86, which
numpy computes as k / (d * M). -/
def freqs (fs : ℚ) (M k : ℕ) : ℚ := (k : ℚ) / (1 / fs * (M : ℚ))

/-- The zero padded window x_sum[:M] handed to rfft with n=M: sample n of the
composite signal when n is below min(N, M), and 0 beyond. -/
noncomputable def xPad (fs duration : ℚ) (f1 f2 : ℝ) (M n : ℕ) : ℝ :=
  if n < min (gridN fs duration) M then x_sum f1 f2 ((t fs duration n : ℚ) : ℝ)
  else 0

theorem truncQ_of_nonneg {q : ℚ} (h : 0 ≤ q) : truncQ q = ⌊q⌋ := if_pos h

/-- Truncation toward zero keeps a value inside a symmetric integer range. -/
theorem truncQ_mem (q : ℚ) (m : ℤ) (hm : 0 ≤ m) (h1 : -(m : ℚ) ≤ q)
    (h2 : q ≤ (m : ℚ)) : -m ≤ truncQ q ∧ truncQ q ≤ m := by
  unfold truncQ
  split
  · constructor
    · calc -m ≤ 0 := by omega
        _ ≤ ⌊q⌋ := Int.floor_nonneg.mpr (by assumption)
    · calc ⌊q⌋ ≤ ⌊(m : ℚ)⌋ := Int.floor_le_floor h2
        _ = m := Int.floor_intCast m
  · constructor
    · calc -m = ⌈(-(m : ℚ) : ℚ)⌉ := by rw [← Int.cast_neg, Int.ceil_intCast]
        _ ≤ ⌈q⌉ := Int.ceil_le_ceil h1
    · have hq : q ≤ 0 := by linarith [not_le.mp (by assumption : ¬ 0 ≤ q)]
      calc ⌈q⌉ ≤ 0 := Int.ceil_le.mpr (by exact_mod_cast hq)
        _ ≤ m := hm

/-- Truncation toward zero moves a rational by strictly less than one. -/
theorem abs_truncQ_sub_lt_one (q : ℚ) : |((truncQ q : ℤ) : ℚ) - q| < 1 := by
  unfold truncQ
  split
  · have h1 := Int.floor_le q
    have h2 := Int.lt_floor_add_one q
    rw [abs_of_nonpos (by linarith)]
    linarith
  · have h1 := Int.le_ceil q
    have h2 := Int.ceil_lt_add_one q
    rw [abs_of_nonneg (by linarith)]
    linarith

/-- The clipped sample always lies in the closed interval [-1, 1]. -/
theorem data_clip_mem (x : ℚ) : -1 ≤ data_clip x ∧ data_clip x ≤ 1 := by
  unfold data_clip
  constructor
  · exact le_min (le_max_right x (-1)) (by norm_num)
  · exact min_le_right _ _

/-- The start index of every animation frame equals min(k * step, N - window),
with no side condition: the source reassignment of i performs this clamping. -/
theorem sliceStart_eq_min (N W F k : ℤ) :
    sliceStart N W F k = min (k * step N W F) (N - W) := by
  unfold sliceStart sliceEnd
  by_cases h : k * step N W F + W ≤ N
  · rw [if_pos h, if_pos (by ring), min_eq_left (by linarith)]
  · rw [if_neg h, if_neg (by omega), min_eq_right (by omega)]

/-- The slice taken by every animation frame has index length exactly the
window length, with no side condition. -/
theorem sliceLen_eq (N W F k : ℤ) : sliceLen N W F k = W := by
  unfold sliceLen sliceStart sliceEnd
  by_cases h : k * step N W F + W ≤ N
  · rw [if_pos h, if_pos (by ring)]
    ring
  · rw [if_neg h, if_neg (by omega)]
    ring

theorem one_le_step (N W F : ℤ) : 1 ≤ step N W F := le_max_left _ _

/-- Claim C1: for window length W with 0 ≤ W ≤ N and frame count F > 0, frame
k (0 ≤ k < F) of the Window Sampler starts at min(k * step, N - W) with
step = max(1, (N - W) // F); every frame slice has index length exactly W,
every start index lies in [0, N - W], and frame 0 starts at 0. -/
theorem windowSampler_spec (N W F k : ℤ) (hW0 : 0 ≤ W) (hWN : W ≤ N)
    (hF : 0 < F) (hk0 : 0 ≤ k) (hkF : k < F) :
    sliceStart N W F k = min (k * step N W F) (N - W) ∧
    sliceLen N W F k = W ∧
    0 ≤ sliceStart N W F k ∧ sliceStart N W F k ≤ N - W ∧
    sliceStart N W F 0 = 0 := by
  have hks : 0 ≤ k * step N W F :=
    mul_nonneg hk0 (le_trans zero_le_one (one_le_step N W F))
  refine ⟨sliceStart_eq_min N W F k, sliceLen_eq N W F k, ?_, ?_, ?_⟩
  · rw [sliceStart_eq_min]
    exact le_min hks (by omega)
  · rw [sliceStart_eq_min]
    exact min_le_right _ _
  · rw [sliceStart_eq_min]
    simp only [zero_mul]
    exact min_eq_left (by omega)

/-- Witness for claim C1 at the spec example N = 1000, W = 100, F = 10,
frame k = 9: step is 90, the frame starts at 810 and has length 100. -/
theorem windowSampler_spec_witness :
    sliceStart 1000 100 10 9 = min (9 * step 1000 100 10) (1000 - 100) ∧
    sliceLen 1000 100 10 9 = 100 ∧
    0 ≤ sliceStart 1000 100 10 9 ∧ sliceStart 1000 100 10 9 ≤ 1000 - 100 ∧
    sliceStart 1000 100 10 0 = 0 :=
  windowSampler_spec 1000 100 10 9 (by decide) (by decide) (by decide)
    (by decide) (by decide)

/-- Counterexample to claim C2 as stated: with sample_rate = 2 and
duration = 7/4 the grid has 3 elements and element 1 equals 7/12, not
1 / sample_rate = 1/2; linspace spacing is duration / N, not 1 / sample_rate. -/
theorem timeGrid_counterexample :
    gridN 2 (7 / 4) = 3 ∧ t 2 (7 / 4) 1 = 7 / 12 ∧ (7 : ℚ) / 12 ≠ 1 / 2 := by
  refine ⟨?_, ?_, by norm_num⟩
  · norm_num [gridN, numSamples, truncQ]
    rfl
  · norm_num [t, numSamples, truncQ]

/-- Claim C2 amended: for sample_rate > 0 and duration > 0 the Time Grid has
length floor(sample_rate * duration), its first element is 0, and its i-th
element is i * duration / N; that element equals i / sample_rate exactly when
sample_rate * duration is an integer, in which case N = sample_rate * duration. -/
theorem timeGrid_amended (fs duration : ℚ) (i : ℕ) (hfs : 0 < fs)
    (hd : 0 < duration) :
    ((timeList fs duration).length : ℤ) = ⌊fs * duration⌋ ∧
    t fs duration 0 = 0 ∧
    t fs duration i = (i : ℚ) * duration / ((numSamples fs duration : ℤ) : ℚ) ∧
    (fs * duration = ((numSamples fs duration : ℤ) : ℚ) →
      t fs duration i = (i : ℚ) / fs) := by
  have hfd : 0 ≤ fs * duration := le_of_lt (mul_pos hfs hd)
  have hfloor : numSamples fs duration = ⌊fs * duration⌋ := truncQ_of_nonneg hfd
  refine ⟨?_, ?_, rfl, ?_⟩
  · have hlen : (timeList fs duration).length = gridN fs duration := by
      simp [timeList]
    rw [hlen]
    unfold gridN
    rw [hfloor]
    exact Int.toNat_of_nonneg (Int.floor_nonneg.mpr hfd)
  · unfold t
    simp
  · intro hint
    unfold t
    rw [← hint]
    rw [div_eq_div_iff (by positivity) hfs.ne']
    ring

/-- Witness for the amended claim C2 at sample_rate = 2, duration = 3, i = 5:
the hypotheses 0 < 2 and 0 < 3 hold. -/
theorem timeGrid_amended_witness :
    ((timeList 2 3).length : ℤ) = ⌊(2 : ℚ) * 3⌋ ∧
    t 2 3 0 = 0 ∧
    t 2 3 5 = (5 : ℚ) * 3 / ((numSamples 2 3 : ℤ) : ℚ) ∧
    ((2 : ℚ) * 3 = ((numSamples 2 3 : ℤ) : ℚ) → t 2 3 5 = (5 : ℚ) / 2) :=
  timeGrid_amended 2 3 5 (by norm_num) (by norm_num)

/-- Claim C5: the PCM pipeline of write_wav preserves the buffer length,
clips every sample into [-1, 1] instead of rejecting it, and rescaling the
emitted integer by 1/32767 reproduces the clipped sample within 1/32767. -/
theorem pcm_roundtrip (xs : List ℚ) (x : ℚ) :
    (write_wav xs).length = xs.length ∧
    -1 ≤ data_clip x ∧ data_clip x ≤ 1 ∧
    |((int_data x : ℤ) : ℚ) / 32767 - data_clip x| ≤ 1 / 32767 := by
  obtain ⟨hlo, hhi⟩ := data_clip_mem x
  refine ⟨by simp [write_wav], hlo, hhi, ?_⟩
  have key := abs_truncQ_sub_lt_one (data_clip x * 32767)
  have hrw : ((int_data x : ℤ) : ℚ) / 32767 - data_clip x =
      (((truncQ (data_clip x * 32767) : ℤ) : ℚ) - data_clip x * 32767) / 32767 := by
    unfold int_data
    field_simp
    ring
  rw [hrw, abs_div, abs_of_pos (by norm_num : (0 : ℚ) < 32767)]
  rw [div_le_div_iff (by norm_num) (by norm_num)]
  nlinarith [abs_nonneg (((truncQ (data_clip x * 32767) : ℤ) : ℚ) - data_clip x * 32767)]

/-- Claim C10: every integer sample emitted by the PCM pipeline lies in
[-32767, 32767]; the 16 bit conversion therefore never wraps and the value
-32768 is never emitted. -/
theorem pcm_range (x : ℚ) :
    -32767 ≤ int_data x ∧ int_data x ≤ 32767 ∧
    toInt16 (int_data x) = int_data x ∧ int_data x ≠ -32768 := by
  obtain ⟨hlo, hhi⟩ := data_clip_mem x
  have hb : -(32767 : ℤ) ≤ truncQ (data_clip x * 32767) ∧
      truncQ (data_clip x * 32767) ≤ 32767 := by
    apply truncQ_mem _ _ (by norm_num)
    · push_cast
      nlinarith
    · push_cast
      nlinarith
  obtain ⟨h1, h2⟩ := hb
  unfold int_data toInt16
  refine ⟨h1, h2, ?_, by omega⟩
  omega

/-- Counterexample to claim C9 as stated: with N = 5, W = 10 > N, F = 2 the
Window Sampler does not fail; it computes the out-of-range start index -5
(and the Signal Generator on sample_rate = 1, duration = 1/2, whose sample
count int(1/2) is zero, silently produces an empty grid rather than
failing). -/
theorem invalidParams_counterexample :
    sliceStart 5 10 2 1 = -5 ∧ timeList 1 (1 / 2) = [] := by
  constructor
  · decide
  · have h : gridN 1 (1 / 2) = 0 := by
      norm_num [gridN, numSamples, truncQ]
    unfold timeList
    rw [h]
    rfl

/-- Claim C9 amended: the code performs no designed parameter validation and
defines no InvalidParameter error. With W > N and a positive frame count
every frame k ≥ 0 of the Window Sampler is assigned the negative start index
N - W and proceeds under Python slice semantics, and a zero sample count
makes the Signal Generator silently produce an empty grid. A negative sample
count or a zero frame count instead surfaces as a generic library error
(ValueError from np.linspace, ZeroDivisionError from the floor division),
raised by the library rather than by any validation in the script, and lies
outside this model. -/
theorem invalidParams_amended (N W F k : ℤ) (fs duration : ℚ) (hNW : N < W)
    (hF : 0 < F) (hk0 : 0 ≤ k) (hcount : numSamples fs duration = 0) :
    (sliceStart N W F k = N - W ∧ N - W < 0) ∧ timeList fs duration = [] := by
  have hks : 0 ≤ k * step N W F :=
    mul_nonneg hk0 (le_trans zero_le_one (one_le_step N W F))
  refine ⟨⟨?_, by omega⟩, ?_⟩
  · rw [sliceStart_eq_min]
    exact min_eq_right (by omega)
  · unfold timeList gridN
    rw [hcount]
    rfl

/-- Witness for the amended claim C9 at N = 5, W = 10, F = 2, k = 1,
sample_rate = 1, duration = 1/2 (sample count int(1/2) = 0). -/
theorem invalidParams_amended_witness :
    (sliceStart 5 10 2 1 = 5 - 10 ∧ (5 : ℤ) - 10 < 0) ∧ timeList 1 (1 / 2) = [] :=
  invalidParams_amended 5 10 2 1 1 (1 / 2) (by decide) (by decide) (by decide)
    (by norm_num [numSamples, truncQ])

/-- Claim C3: the Composite Signal is the elementwise value 0.5 * (x1 + x2),
has the same length as the Time Grid, and every value lies in [-1, 1]. -/
theorem x_sum_spec (fs duration : ℚ) (f1 f2 tv : ℝ) :
    (x_sumList fs duration f1 f2).length = (timeList fs duration).length ∧
    x_sum f1 f2 tv = 0.5 * (x1 f1 tv + x2 f2 tv) ∧
    -1 ≤ x_sum f1 f2 tv ∧ x_sum f1 f2 tv ≤ 1 := by
  refine ⟨by unfold x_sumList; rw [List.length_map], rfl, ?_, ?_⟩
  · have h1 := Real.neg_one_le_cos (2 * Real.pi * f1 * tv)
    have h2 := Real.neg_one_le_cos (2 * Real.pi * f2 * tv)
    unfold x_sum x1 x2
    linarith
  · have h1 := Real.cos_le_one (2 * Real.pi * f1 * tv)
    have h2 := Real.cos_le_one (2 * Real.pi * f2 * tv)
    unfold x_sum x1 x2
    linarith

/-- Product form of the composite signal, by the sum-to-product identity. -/
theorem x_sum_eq_prod (f1 f2 tv : ℝ) :
    x_sum f1 f2 tv =
      Real.cos (Real.pi * (f1 + f2) * tv) * Real.cos (Real.pi * (f1 - f2) * tv) := by
  unfold x_sum x1 x2
  rw [Real.cos_add_cos]
  have e1 : (2 * Real.pi * f1 * tv + 2 * Real.pi * f2 * tv) / 2 =
      Real.pi * (f1 + f2) * tv := by ring
  have e2 : (2 * Real.pi * f1 * tv - 2 * Real.pi * f2 * tv) / 2 =
      Real.pi * (f1 - f2) * tv := by ring
  rw [e1, e2]
  ring

/-- The envelope equals the absolute cosine at the signed difference
frequency, since cosine is even. -/
theorem envelope_eq (f1 f2 tv : ℝ) :
    envelope f1 f2 tv = |Real.cos (Real.pi * (f1 - f2) * tv)| := by
  unfold envelope delta_f
  rcases abs_cases (f2 - f1) with ⟨h, _⟩ | ⟨h, _⟩
  · rw [h, show Real.pi * (f2 - f1) * tv = -(Real.pi * (f1 - f2) * tv) by ring,
      Real.cos_neg]
  · rw [h, show Real.pi * -(f2 - f1) * tv = Real.pi * (f1 - f2) * tv by ring]

/-- The envelope dominates the absolute composite signal at every time. -/
theorem abs_x_sum_le_envelope (f1 f2 tv : ℝ) :
    |x_sum f1 f2 tv| ≤ envelope f1 f2 tv := by
  rw [x_sum_eq_prod, envelope_eq, abs_mul]
  calc |Real.cos (Real.pi * (f1 + f2) * tv)| * |Real.cos (Real.pi * (f1 - f2) * tv)|
      ≤ 1 * |Real.cos (Real.pi * (f1 - f2) * tv)| :=
        mul_le_mul_of_nonneg_right (Real.abs_cos_le_one _) (abs_nonneg _)
    _ = |Real.cos (Real.pi * (f1 - f2) * tv)| := one_mul _

/-- Claim C4: at every grid point the envelope bounds the absolute value of
the zero phase composite signal. -/
theorem envelope_bounds_x_sum (fs duration : ℚ) (f1 f2 : ℝ) (i : ℕ) :
    |x_sum f1 f2 ((t fs duration i : ℚ) : ℝ)| ≤
      envelope f1 f2 ((t fs duration i : ℚ) : ℝ) :=
  abs_x_sum_le_envelope f1 f2 _

/-- Claim C8: for a positive difference frequency every envelope value lies
in [0, 1] and the envelope is periodic with period 1 / delta_f. -/
theorem envelope_range_periodic (f1 f2 tv : ℝ) (h : 0 < delta_f f1 f2) :
    0 ≤ envelope f1 f2 tv ∧ envelope f1 f2 tv ≤ 1 ∧
    envelope f1 f2 (tv + 1 / delta_f f1 f2) = envelope f1 f2 tv := by
  refine ⟨abs_nonneg _, Real.abs_cos_le_one _, ?_⟩
  unfold envelope
  have hne : delta_f f1 f2 ≠ 0 := ne_of_gt h
  have harg : Real.pi * delta_f f1 f2 * (tv + 1 / delta_f f1 f2) =
      Real.pi * delta_f f1 f2 * tv + Real.pi := by
    field_simp
    ring
  rw [harg, Real.cos_add_pi, abs_neg]

/-- Witness for claim C8 at f1 = 0, f2 = 1, tv = 0: the difference frequency
1 is positive. -/
theorem envelope_range_periodic_witness :
    0 ≤ envelope 0 1 0 ∧ envelope 0 1 0 ≤ 1 ∧
    envelope 0 1 (0 + 1 / delta_f 0 1) = envelope 0 1 0 :=
  envelope_range_periodic 0 1 0 (by norm_num [delta_f])

/-- The kernel of the transform as a power of one primitive factor. -/
theorem exp_term_pow (M : ℕ) (d : ℤ) (j : ℕ) :
    Complex.exp (2 * (Real.pi : ℂ) * Complex.I * (d : ℂ) * (j : ℂ) / (M : ℂ)) =
      Complex.exp (2 * (Real.pi : ℂ) * Complex.I * (d : ℂ) / (M : ℂ)) ^ j := by
  rw [← Complex.exp_nat_mul]
  congr 1
  ring

/-- Orthogonality of the discrete characters: the geometric sum of a
nontrivial M-th root of unity over a full period vanishes. -/
theorem sum_exp_orthogonal (M : ℕ) (hM : 0 < M) (d : ℤ) (hd : ¬ ((M : ℤ) ∣ d)) :
    ∑ j ∈ Finset.range M,
      Complex.exp (2 * (Real.pi : ℂ) * Complex.I * (d : ℂ) * (j : ℂ) / (M : ℂ)) = 0 := by
  have hMC : (M : ℂ) ≠ 0 := Nat.cast_ne_zero.mpr hM.ne'
  have h2pi : (2 * (Real.pi : ℂ) * Complex.I) ≠ 0 := by
    simp [Real.pi_ne_zero, Complex.I_ne_zero, Complex.ofReal_ne_zero]
  rw [Finset.sum_congr rfl fun j _ => exp_term_pow M d j]
  have hrM : Complex.exp (2 * (Real.pi : ℂ) * Complex.I * (d : ℂ) / (M : ℂ)) ^ M = 1 := by
    rw [← Complex.exp_nat_mul,
      show (M : ℂ) * (2 * (Real.pi : ℂ) * Complex.I * (d : ℂ) / (M : ℂ)) =
        (d : ℂ) * (2 * (Real.pi : ℂ) * Complex.I) from by field_simp; ring]
    exact Complex.exp_int_mul_two_pi_mul_I d
  have hr1 : Complex.exp (2 * (Real.pi : ℂ) * Complex.I * (d : ℂ) / (M : ℂ)) ≠ 1 := by
    intro h
    obtain ⟨n, hn⟩ := Complex.exp_eq_one_iff.mp h
    have hn2 : (d : ℂ) / (M : ℂ) = (n : ℂ) := by
      apply mul_left_cancel₀ h2pi
      rw [show 2 * (Real.pi : ℂ) * Complex.I * ((d : ℂ) / (M : ℂ)) =
          2 * (Real.pi : ℂ) * Complex.I * (d : ℂ) / (M : ℂ) from by ring, hn]
      ring
    rw [div_eq_iff hMC] at hn2
    have hdz : d = n * M := by exact_mod_cast hn2
    exact hd ⟨n, by rw [hdz]; ring⟩
  rw [geom_sum_eq hr1, hrM]
  simp

/-- Discrete Fourier inversion: pairing the coefficient vector with the
inverse kernel at index m recovers M times sample m. -/
theorem rfft_inversion (v : ℕ → ℝ) (M : ℕ) (hM : 0 < M) (m : ℕ) (hm : m < M) :
    ∑ j ∈ Finset.range M,
        rfft v M j *
          Complex.exp (2 * (Real.pi : ℂ) * Complex.I * (j : ℂ) * (m : ℂ) / (M : ℂ)) =
      (M : ℂ) * (v m : ℂ) := by
  unfold rfft
  simp only [Finset.sum_mul]
  rw [Finset.sum_comm]
  rw [Finset.sum_congr rfl (fun n _ => ?_hterm)]
  case _hterm =>
    show _ = (v n : ℂ) * ∑ j ∈ Finset.range M,
        Complex.exp (2 * (Real.pi : ℂ) * Complex.I * (((m : ℤ) - (n : ℤ) : ℤ) : ℂ) *
          (j : ℂ) / (M : ℂ))
    rw [Finset.mul_sum]
    refine Finset.sum_congr rfl fun j _ => ?_
    rw [mul_assoc, ← Complex.exp_add]
    congr 1
    push_cast
    ring
  rw [Finset.sum_eq_single m ?_hzero ?_hnotmem]
  case _hzero =>
    intro n hn hnm
    have hmn : ((m : ℤ) - (n : ℤ)) ≠ 0 := by
      rw [sub_ne_zero]
      exact_mod_cast Ne.symm hnm
    have hlt : |(m : ℤ) - (n : ℤ)| < (M : ℤ) := by
      have hn' : n < M := Finset.mem_range.mp hn
      rw [abs_sub_lt_iff]
      omega
    have hd : ¬ ((M : ℤ) ∣ ((m : ℤ) - (n : ℤ))) := by
      intro hdvd
      have habs : (M : ℤ) ≤ |(m : ℤ) - (n : ℤ)| :=
        Int.le_of_dvd (abs_pos.mpr hmn) ((dvd_abs _ _).mpr hdvd)
      exact absurd habs (not_le.mpr hlt)
    rw [sum_exp_orthogonal M hM _ hd, mul_zero]
  case _hnotmem =>
    intro hmem
    exact absurd (Finset.mem_range.mpr hm) hmem
  rw [show (((m : ℤ) - (m : ℤ) : ℤ) : ℂ) = 0 from by push_cast; ring]
  simp [Finset.sum_const, Finset.card_range]
  ring

/-- Conjugate symmetry of the transform of a real signal: the coefficient at
M - k is the conjugate of the coefficient at k. -/
theorem rfft_conj (v : ℕ → ℝ) (M : ℕ) (hM : 0 < M) (k : ℕ) (hk : k ≤ M) :
    rfft v M (M - k) = (starRingEnd ℂ) (rfft v M k) := by
  have hMC : (M : ℂ) ≠ 0 := Nat.cast_ne_zero.mpr hM.ne'
  unfold rfft
  rw [map_sum]
  refine Finset.sum_congr rfl fun n hn => ?_
  rw [map_mul, Complex.conj_ofReal]
  congr 1
  rw [← Complex.exp_conj]
  have hcast : ((M - k : ℕ) : ℂ) = (M : ℂ) - (k : ℂ) := by
    push_cast [hk]
    ring
  have harg : -(2 * (Real.pi : ℂ) * Complex.I) * ((M - k : ℕ) : ℂ) * (n : ℂ) / (M : ℂ) =
      ((-(n : ℤ) : ℤ) : ℂ) * (2 * (Real.pi : ℂ) * Complex.I) +
        2 * (Real.pi : ℂ) * Complex.I * (k : ℂ) * (n : ℂ) / (M : ℂ) := by
    rw [hcast]
    push_cast
    field_simp
    ring
  rw [harg, Complex.exp_add, Complex.exp_int_mul_two_pi_mul_I, one_mul]
  congr 1
  rw [show (starRingEnd ℂ) (-(2 * (Real.pi : ℂ) * Complex.I) * (k : ℂ) * (n : ℂ) / (M : ℂ)) =
      2 * (Real.pi : ℂ) * Complex.I * (k : ℂ) * (n : ℂ) / (M : ℂ) from ?_]
  simp only [map_div₀, map_mul, map_neg, map_ofNat, Complex.conj_I, Complex.conj_ofReal,
    Complex.conj_natCast]
  ring

/-- If every one-sided coefficient vanishes then every coefficient below M
vanishes, by conjugate symmetry. -/
theorem rfft_one_sided_zero (v : ℕ → ℝ) (M : ℕ) (hM : 0 < M)
    (h : ∀ k, k ≤ M / 2 → rfft v M k = 0) : ∀ j, j < M → rfft v M j = 0 := by
  intro j hj
  by_cases hj2 : j ≤ M / 2
  · exact h j hj2
  · have hsym := rfft_conj v M hM (M - j) (by omega)
    rw [Nat.sub_sub_self hj.le] at hsym
    rw [hsym, h (M - j) (by omega), map_zero]

/-- A signal supported below M with a nonzero sample has a nonzero one-sided
coefficient, by Fourier inversion. -/
theorem exists_rfft_ne_zero (v : ℕ → ℝ) (M : ℕ) (hM : 0 < M)
    (n0 : ℕ) (hn0 : n0 < M) (hv : v n0 ≠ 0) :
    ∃ k, k ≤ M / 2 ∧ rfft v M k ≠ 0 := by
  by_contra hcon
  push_neg at hcon
  have hall : ∀ j, j < M → rfft v M j = 0 :=
    rfft_one_sided_zero v M hM fun k hk => hcon k hk
  have hinv := rfft_inversion v M hM n0 hn0
  rw [Finset.sum_eq_zero
    (fun j hj => by rw [hall j (Finset.mem_range.mp hj), zero_mul])] at hinv
  have hMC : (M : ℂ) ≠ 0 := Nat.cast_ne_zero.mpr hM.ne'
  have hvz : (v n0 : ℂ) = 0 := by
    rcases mul_eq_zero.mp hinv.symm with h | h
    · exact absurd h hMC
    · exact h
  exact hv (by exact_mod_cast hvz)

/-- Sample 0 of the padded composite window is 1: the two cosines both start
at their peak, so a nonempty composite signal is never identically zero. -/
theorem xPad_zero_sample (fs duration : ℚ) (f1 f2 : ℝ) (M : ℕ)
    (hN : 0 < gridN fs duration) (hM : 0 < M) :
    xPad fs duration f1 f2 M 0 = 1 := by
  unfold xPad
  rw [if_pos (by omega : 0 < min (gridN fs duration) M)]
  unfold x_sum x1 x2 t
  norm_num

/-- Every coefficient of the all-zero signal has magnitude 0. -/
theorem absX_zero_input (M k : ℕ) : absX (fun _ => 0) M k = 0 := by
  unfold absX rfft
  simp

/-- The normalizer of the all-zero signal is 0: the normalization divides by
zero there. -/
theorem maxAbsX_zero_input (M : ℕ) : maxAbsX (fun _ => 0) M = 0 := by
  unfold maxAbsX
  apply le_antisymm
  · exact Finset.sup'_le _ _ fun k _ => le_of_eq (absX_zero_input M k)
  · exact le_trans (le_of_eq (absX_zero_input M 0).symm)
      (Finset.le_sup' _ (Finset.mem_range.mpr (Nat.succ_pos _)))

/-- Counterexample to claim C7 as stated: on the all-zero signal with the
source window size 65536 the code does not fail with any error; the
normalizer np.max(np.abs(X)) is 0 and the division is performed anyway,
still producing an output bin (NaN in IEEE arithmetic, 0 under the total
division convention of this model). -/
theorem degenerate_counterexample :
    maxAbsX (fun _ => 0) 65536 = 0 ∧ amp (fun _ => 0) 65536 0 = 0 := by
  refine ⟨maxAbsX_zero_input 65536, ?_⟩
  unfold amp
  rw [absX_zero_input, zero_div]

/-- Claim C7 amended: the code has no DegenerateSignal error; on an all-zero
input the Spectrum Analyzer computes a zero maximum magnitude and divides by
it anyway, producing output values rather than failing first. -/
theorem degenerate_amended (M k : ℕ) :
    maxAbsX (fun _ => 0) M = 0 ∧ amp (fun _ => 0) M k = 0 := by
  refine ⟨maxAbsX_zero_input M, ?_⟩
  unfold amp
  rw [absX_zero_input, zero_div]

/-- Claim C6: for a nonempty composite signal (never identically zero, since
sample 0 equals 1) and a power-of-two window size M, the spectrum pairs bin k
with the one-sided rfft magnitude of the zero padded prefix divided by the
maximum magnitude, the maximum of the normalized magnitudes over bins
0..M/2 is exactly 1, and bin k is paired with frequency k * fs / M. -/
theorem spectrum_spec (fs duration : ℚ) (f1 f2 : ℝ) (M : ℕ)
    (hN : 0 < gridN fs duration) (hM : ∃ j : ℕ, M = 2 ^ j) :
    (∀ k, amp (xPad fs duration f1 f2 M) M k =
        absX (xPad fs duration f1 f2 M) M k / maxAbsX (xPad fs duration f1 f2 M) M) ∧
    (Finset.range (M / 2 + 1)).sup' Finset.nonempty_range_succ
        (amp (xPad fs duration f1 f2 M) M) = 1 ∧
    (∀ k, freqs fs M k = (k : ℚ) * fs / ((M : ℕ) : ℚ)) := by
  obtain ⟨j0, hj0⟩ := hM
  have hMpos : 0 < M := hj0 ▸ pow_pos (by norm_num) j0
  have h0 : xPad fs duration f1 f2 M 0 = 1 :=
    xPad_zero_sample fs duration f1 f2 M hN hMpos
  obtain ⟨k1, hk1, hc1⟩ :=
    exists_rfft_ne_zero (xPad fs duration f1 f2 M) M hMpos 0 hMpos
      (by rw [h0]; norm_num)
  have habs1 : 0 < absX (xPad fs duration f1 f2 M) M k1 := Complex.abs.pos hc1
  have hk1mem : k1 ∈ Finset.range (M / 2 + 1) := Finset.mem_range.mpr (by omega)
  have hmax_pos : 0 < maxAbsX (xPad fs duration f1 f2 M) M :=
    lt_of_lt_of_le habs1 (Finset.le_sup' _ hk1mem)
  refine ⟨fun k => rfl, ?_, ?_⟩
  · obtain ⟨k0, hk0mem, hk0⟩ :=
      Finset.exists_mem_eq_sup' Finset.nonempty_range_succ
        (absX (xPad fs duration f1 f2 M) M)
    have hmp : 0 < (Finset.range (M / 2 + 1)).sup' Finset.nonempty_range_succ
        (absX (xPad fs duration f1 f2 M) M) := hmax_pos
    rw [hk0] at hmp
    apply le_antisymm
    · apply Finset.sup'_le
      intro k hk
      unfold amp
      rw [div_le_one hmax_pos]
      exact Finset.le_sup' _ hk
    · have h1 : amp (xPad fs duration f1 f2 M) M k0 = 1 := by
        unfold amp maxAbsX
        rw [hk0]
        exact div_self (ne_of_gt hmp)
      calc (1 : ℝ) = amp (xPad fs duration f1 f2 M) M k0 := h1.symm
        _ ≤ _ := Finset.le_sup' _ hk0mem
  · intro k
    unfold freqs
    by_cases hfs : fs = 0
    · rw [hfs]
      norm_num
    · have hMQ : ((M : ℕ) : ℚ) ≠ 0 := Nat.cast_ne_zero.mpr hMpos.ne'
      field_simp

/-- Witness for claim C6 at fs = 1, duration = 1, f1 = f2 = 0, M = 4: the
grid has one sample and 4 is a power of two. -/
theorem spectrum_spec_witness :
    (∀ k, amp (xPad 1 1 0 0 4) 4 k =
        absX (xPad 1 1 0 0 4) 4 k / maxAbsX (xPad 1 1 0 0 4) 4) ∧
    (Finset.range (4 / 2 + 1)).sup' Finset.nonempty_range_succ
        (amp (xPad 1 1 0 0 4) 4) = 1 ∧
    (∀ k, freqs 1 4 k = (k : ℚ) * 1 / ((4 : ℕ) : ℚ)) :=
  spectrum_spec 1 1 0 0 4 (by norm_num [gridN, numSamples, truncQ]) ⟨2, rfl⟩

end Beats
